import Mathlib

/-!
Verification of the LRU cache core of the `flexbone` repository
(`src/services/cache_service.py`, class `LRUCache`).

Shallow embedding conventions:
* The Python `OrderedDict` is modelled as an association list
  `List (String × Entry V)` whose front is the least-recently-used end and
  whose back is the most-recently-used end (matching `popitem(last=False)`
  evicting from the front and `move_to_end` appending at the back).
  Dictionary keys are unique; deleting a key (`del self._cache[key]`) is
  modelled by filtering that key out of the list, which coincides with
  removing its single binding on key-nodup lists.
* `time.time()` is impure; every operation takes its sample of the clock as
  an explicit argument `now : Int`.  The two adjacent `time.time()` calls
  inside `set` (one for `expires_at`, one for `created_at`) are modelled as
  the same instant.
* The module-level `config` object becomes an explicit `Cfg` record.
* The cached payload (a Python dict) is opaque to the cache; it is a type
  parameter `V`.
* Statistics counters are `Nat`; the float `hit_rate` percentage is
  modelled exactly in `ℚ` (the code's final rounding of the float to two
  decimals is presentation-only and not modelled).
-/

namespace CacheService

/-- A cache entry: the dict
`{'value': v, 'expires_at': now + ttl, 'created_at': now}` built in
`LRUCache.set`. -/
structure Entry (V : Type) where
  value : V
  expires_at : Int
  created_at : Int
  deriving Repr, DecidableEq

/-- The configuration fields of `config.py` read by the cache. -/
structure Cfg where
  CACHE_ENABLED : Bool
  MAX_CACHE_SIZE : Nat
  CACHE_TTL_SECONDS : Int
  deriving Repr, DecidableEq

/-- The mutable state of an `LRUCache` instance: the ordered dict `_cache`
(front = least recently used) and the `_stats` counters. -/
structure CacheState (V : Type) where
  cache : List (String × Entry V)
  hits : Nat
  misses : Nat
  evictions : Nat
  sets : Nat
  deriving Repr, DecidableEq

variable {V : Type}

/-- The state of a freshly constructed `LRUCache` (`__init__`). -/
def initState : CacheState V := ⟨[], 0, 0, 0, 0⟩

/-- `LRUCache._is_expired`: `time.time() > entry['expires_at']`. -/
def isExpired (now : Int) (e : Entry V) : Bool :=
  decide (e.expires_at < now)

/-- `del self._cache[key]`: remove the binding of `k`.  On key-nodup lists
(the only reachable ones) this removes exactly the one entry for `k`. -/
def eraseKey {β : Type} (k : String) (l : List (String × β)) :
    List (String × β) :=
  l.filter (fun p => p.1 != k)

/-- `LRUCache._evict_lru`: pop the least-recently-used (front) item if the
dict is non-empty, and count an eviction. -/
def evictLru (σ : CacheState V) : CacheState V :=
  match σ.cache with
  | [] => σ
  | _ :: rest => { σ with cache := rest, evictions := σ.evictions + 1 }

/-- `LRUCache.get`: returns the looked-up value (None = miss) together with
the successor state. -/
def get (cfg : Cfg) (now : Int) (k : String) (σ : CacheState V) :
    Option V × CacheState V :=
  if !cfg.CACHE_ENABLED then (none, σ)
  else
    match σ.cache.lookup k with
    | some e =>
        if isExpired now e then
          (none, { σ with cache := eraseKey k σ.cache, misses := σ.misses + 1 })
        else
          (some e.value,
            { σ with cache := eraseKey k σ.cache ++ [(k, e)],
                     hits := σ.hits + 1 })
    | none => (none, { σ with misses := σ.misses + 1 })

/-- `LRUCache.set`.  `ttl? = none` models the default argument
`ttl=None`, replaced by `config.CACHE_TTL_SECONDS`.  The Python body
assigns `self._cache[key] = {...}` and then `move_to_end(key)`; the net
effect on the order is: drop any existing binding of `key`, then append the
fresh entry at the most-recently-used end. -/
def set (cfg : Cfg) (now : Int) (k : String) (v : V) (ttl? : Option Int)
    (σ : CacheState V) : CacheState V :=
  if !cfg.CACHE_ENABLED then σ
  else
    let ttl := ttl?.getD cfg.CACHE_TTL_SECONDS
    let σ1 :=
      if (σ.cache.lookup k).isNone
          && decide (cfg.MAX_CACHE_SIZE ≤ σ.cache.length) then
        evictLru σ
      else σ
    { σ1 with
      cache := eraseKey k σ1.cache ++ [(k, ⟨v, now + ttl, now⟩)],
      sets := σ1.sets + 1 }

/-- `LRUCache.delete`: remove the key if present (no `CACHE_ENABLED` check
in the source). -/
def delete (k : String) (σ : CacheState V) : CacheState V :=
  { σ with cache := eraseKey k σ.cache }

/-- `LRUCache.clear`. -/
def clear (σ : CacheState V) : CacheState V :=
  { σ with cache := [] }

/-- The list `expired_keys = [k for k, v in self._cache.items() if
self._is_expired(v)]` computed by `size` and `cleanup_expired`. -/
def expiredKeys (now : Int) (l : List (String × Entry V)) : List String :=
  (l.filter (fun p => isExpired now p.2)).map Prod.fst

/-- The deletion loop `for key in expired_keys: del self._cache[key]`. -/
def purgeExpired (now : Int) (l : List (String × Entry V)) :
    List (String × Entry V) :=
  (expiredKeys now l).foldl (fun c k => eraseKey k c) l

/-- `LRUCache.size`: purges expired entries, then returns the count. -/
def size (now : Int) (σ : CacheState V) : Nat × CacheState V :=
  let c := purgeExpired now σ.cache
  (c.length, { σ with cache := c })

/-- `LRUCache.cleanup_expired`: purges expired entries and returns how many
were removed (`len(expired_keys)`). -/
def cleanup_expired (now : Int) (σ : CacheState V) : Nat × CacheState V :=
  ((expiredKeys now σ.cache).length, { σ with cache := purgeExpired now σ.cache })

/-- `total_requests = hits + misses` in `LRUCache.get_stats`. -/
def total_requests (σ : CacheState V) : Nat := σ.hits + σ.misses

/-- The `hit_rate` field of `LRUCache.get_stats`:
`(hits / total_requests * 100) if total_requests > 0 else 0.0`, computed
exactly in `ℚ` (the code's `round(·, 2)` on the float is not modelled). -/
def hit_rate (σ : CacheState V) : ℚ :=
  if 0 < total_requests σ then
    (σ.hits : ℚ) / (total_requests σ : ℚ) * 100
  else 0

/-- One client-visible cache operation, with its clock sample where the
source reads `time.time()`. -/
inductive Op (V : Type) where
  | set (k : String) (v : V) (ttl? : Option Int) (now : Int)
  | get (k : String) (now : Int)
  | delete (k : String)
  | clear
  | size (now : Int)
  | cleanup (now : Int)
  deriving Repr, DecidableEq

/-- The state transition of one operation (return values discarded). -/
def step (cfg : Cfg) (σ : CacheState V) : Op V → CacheState V
  | .set k v t n => set cfg n k v t σ
  | .get k n => (get cfg n k σ).2
  | .delete k => delete k σ
  | .clear => clear σ
  | .size n => (size n σ).2
  | .cleanup n => (cleanup_expired n σ).2

/-- Run a sequence of operations. -/
def run (cfg : Cfg) (ops : List (Op V)) (σ : CacheState V) : CacheState V :=
  ops.foldl (step cfg) σ

end CacheService

namespace CacheService

/-!
Ghost instrumentation for the LRU recency order.  `GState` runs the cache
alongside a stamp map recording, for each key, the index (`tick`) of the
last operation that *touched* it: a `set` performed while caching is
enabled, or a `get` that returned a value (a hit).  `stamps` is a cons-list
whose most recent binding shadows older ones.
-/

/-- Cache state plus ghost recency stamps. -/
structure GState (V : Type) where
  cs : CacheState V
  stamps : List (String × Nat)
  tick : Nat
  deriving Repr, DecidableEq

variable {V : Type}

/-- Initial ghost state. -/
def initG : GState V := ⟨initState, [], 0⟩

/-- Ghost step: the cache steps as in `step`; additionally a successful
touch of key `k` stamps `k` with the current tick. -/
def gstep (cfg : Cfg) (g : GState V) : Op V → GState V
  | .set k v t n =>
      ⟨set cfg n k v t g.cs,
        if cfg.CACHE_ENABLED then (k, g.tick) :: g.stamps else g.stamps,
        g.tick + 1⟩
  | .get k n =>
      ⟨(get cfg n k g.cs).2,
        if (get cfg n k g.cs).1.isSome then (k, g.tick) :: g.stamps
        else g.stamps,
        g.tick + 1⟩
  | op => ⟨step cfg g.cs op, g.stamps, g.tick + 1⟩

/-- Run with ghost instrumentation. -/
def grun (cfg : Cfg) (ops : List (Op V)) (g : GState V) : GState V :=
  ops.foldl (gstep cfg) g

/-- The tick at which key `k` was last touched (0 if never). -/
def stampOf (st : List (String × Nat)) (k : String) : Nat :=
  (st.lookup k).getD 0

/-- Recency well-formedness of a cache list w.r.t. a stamp map: the list is
sorted front-to-back by increasing last-touch tick, and every cached key
carries a stamp below the current tick. -/
def recencyList (st : List (String × Nat)) (t : Nat)
    (c : List (String × Entry V)) : Prop :=
  c.Pairwise (fun p q => stampOf st p.1 < stampOf st q.1) ∧
  ∀ p ∈ c, ∃ s, st.lookup p.1 = some s ∧ s < t

/-- The ghost invariant: the cache order is the recency order. -/
def recencyInv (g : GState V) : Prop :=
  recencyList g.stamps g.tick g.cs.cache

/-- Admissible TTL for one operation: a `set`'s effective TTL (explicit, or
the configured default) is non-negative. -/
def ttlOk (cfg : Cfg) : Op V → Prop
  | .set _ _ t _ => 0 ≤ t.getD cfg.CACHE_TTL_SECONDS
  | _ => True

/-- All entries satisfy `created_at ≤ expires_at`. -/
def entriesOk (σ : CacheState V) : Prop :=
  ∀ p ∈ σ.cache, p.2.created_at ≤ p.2.expires_at

/-- Whether an operation is a `get` (the only kind that records a hit or a
miss). -/
def isGetOp : Op V → Bool
  | .get _ _ => true
  | _ => false

/-!
Concrete test fixtures, mirroring the defaults of `config.py`
(`CACHE_ENABLED=true`, `MAX_CACHE_SIZE=1000`, `CACHE_TTL_SECONDS=3600`) and
the configurations of the spec's concrete scenarios.
-/

/-- The default configuration of `config.py`. -/
def cfgDefault : Cfg := ⟨true, 1000, 3600⟩

/-- Caching administratively disabled (`CACHE_ENABLED=false`). -/
def cfgDisabled : Cfg := ⟨false, 1000, 3600⟩

/-- The spec's concrete scenario configuration: capacity 2, TTL 1000 s. -/
def cfgCap2 : Cfg := ⟨true, 2, 1000⟩

/-- A deployment with `MAX_CACHE_SIZE=0`. -/
def cfgCap0 : Cfg := ⟨true, 0, 10⟩

/-- The spec's concrete scenario trace:
`set(a,"X")`, `set(b,"Y")`, `get(a)` (a hit, `a` becomes MRU). -/
def scenarioOps : List (Op String) :=
  [Op.set "a" "X" none 0, Op.set "b" "Y" none 1, Op.get "a" 2]

end CacheService

/-! ### Association-list lemmas -/

namespace CacheService

variable {V β : Type}

theorem eraseKey_sublist (k : String) (l : List (String × β)) :
    List.Sublist (eraseKey k l) l :=
  List.filter_sublist l

theorem mem_eraseKey {k : String} {l : List (String × β)} {p : String × β} :
    p ∈ eraseKey k l ↔ p ∈ l ∧ p.1 ≠ k := by
  simp [eraseKey, List.mem_filter, bne_iff_ne]

theorem lookup_eraseKey_self (k : String) (l : List (String × β)) :
    List.lookup k (eraseKey k l) = none := by
  rw [List.lookup_eq_none_iff]
  intro p hp
  have h := (mem_eraseKey.mp hp).2
  simpa [bne_iff_ne] using h.symm

theorem lookup_eraseKey_ne {k k' : String} (h : k' ≠ k) (l : List (String × β)) :
    List.lookup k' (eraseKey k l) = List.lookup k' l := by
  induction l with
  | nil => rfl
  | cons x t ih =>
      obtain ⟨xk, xv⟩ := x
      by_cases hx : xk = k
      · have h1 : ((xk : String) != k) = false := by simp [hx]
        have h2 : (k' == xk) = false := by simpa using fun hh => h (hh.trans hx)
        simpa [eraseKey, List.filter_cons, List.lookup_cons, h1, h2] using ih
      · have h1 : ((xk : String) != k) = true := by simpa [bne_iff_ne] using hx
        by_cases hk : k' = xk
        · have h2 : (k' == xk) = true := by simpa using hk
          simp [eraseKey, List.filter_cons, List.lookup_cons, h1, h2]
        · have h2 : (k' == xk) = false := by simpa using hk
          simpa [eraseKey, List.filter_cons, List.lookup_cons, h1, h2] using ih

theorem eraseKey_of_lookup_none {k : String} {l : List (String × β)}
    (h : List.lookup k l = none) : eraseKey k l = l := by
  rw [List.lookup_eq_none_iff] at h
  apply List.filter_eq_self.mpr
  intro p hp
  have hne := h p hp
  simp only [bne_iff_ne] at hne ⊢
  exact hne.symm

theorem lookup_mem {l : List (String × β)} {k : String} {e : β}
    (h : List.lookup k l = some e) : (k, e) ∈ l := by
  rw [List.lookup_eq_some_iff] at h
  obtain ⟨l1, l2, rfl, -⟩ := h
  simp

theorem length_eraseKey_le (k : String) (l : List (String × β)) :
    (eraseKey k l).length ≤ l.length :=
  (eraseKey_sublist k l).length_le

theorem length_eraseKey_lt {k : String} {l : List (String × β)} {e : β}
    (h : List.lookup k l = some e) : (eraseKey k l).length < l.length := by
  induction l with
  | nil => simp at h
  | cons x t ih =>
      obtain ⟨xk, xv⟩ := x
      by_cases hx : k = xk
      · subst hx
        have he : eraseKey k ((k, xv) :: t) = eraseKey k t := by
          simp [eraseKey, List.filter_cons]
        rw [he]
        exact Nat.lt_succ_of_le (length_eraseKey_le k t)
      · have h' : List.lookup k t = some e := by
          simpa [List.lookup_cons, show (k == xk) = false from by simpa using hx]
            using h
        have he : eraseKey k ((xk, xv) :: t) = (xk, xv) :: eraseKey k t := by
          simp [eraseKey, List.filter_cons,
            show (xk != k) = true from by
              simpa [bne_iff_ne] using fun hh => hx hh.symm]
        rw [he]
        simpa using Nat.succ_lt_succ (ih h')

theorem eq_of_mem_of_nodup_keys {l : List (String × β)}
    (hnd : (l.map Prod.fst).Nodup) {p q : String × β}
    (hp : p ∈ l) (hq : q ∈ l) (h : p.1 = q.1) : p = q := by
  induction l with
  | nil => simp at hp
  | cons x t ih =>
      rw [List.map_cons, List.nodup_cons] at hnd
      rcases List.mem_cons.mp hp with rfl | hp'
      · rcases List.mem_cons.mp hq with rfl | hq'
        · rfl
        · exact absurd (h ▸ List.mem_map_of_mem Prod.fst hq') hnd.1
      · rcases List.mem_cons.mp hq with rfl | hq'
        · exact absurd (h ▸ List.mem_map_of_mem Prod.fst hp') hnd.1
        · exact ih hnd.2 hp' hq'

theorem length_eraseKey_nodup {k : String} {l : List (String × β)} {e : β}
    (hnd : (l.map Prod.fst).Nodup) (h : List.lookup k l = some e) :
    (eraseKey k l).length + 1 = l.length := by
  induction l with
  | nil => simp at h
  | cons x t ih =>
      obtain ⟨xk, xv⟩ := x
      rw [List.map_cons, List.nodup_cons] at hnd
      by_cases hx : k = xk
      · subst hx
        have hnone : List.lookup k t = none := by
          rw [List.lookup_eq_none_iff]
          intro p hp
          have hmem : p.1 ∈ t.map Prod.fst := List.mem_map_of_mem Prod.fst hp
          have hne : p.1 ≠ k := fun hh => hnd.1 (hh ▸ hmem)
          simpa [bne_iff_ne] using hne.symm
        have he : eraseKey k ((k, xv) :: t) = t := by
          have hcons : eraseKey k ((k, xv) :: t) = eraseKey k t := by
            simp [eraseKey, List.filter_cons]
          rw [hcons, eraseKey_of_lookup_none hnone]
        rw [he]
        simp
      · have h' : List.lookup k t = some e := by
          simpa [List.lookup_cons, show (k == xk) = false from by simpa using hx]
            using h
        simpa [eraseKey, List.filter_cons,
          show (xk != k) = true from by
            simpa [bne_iff_ne] using fun hh => hx hh.symm]
          using ih hnd.2 h'

theorem lookup_eraseKey_append {k k' : String} (hne : k' ≠ k)
    (l : List (String × β)) (e : β) :
    List.lookup k' (eraseKey k l ++ [(k, e)]) = List.lookup k' l := by
  rw [List.lookup_append, lookup_eraseKey_ne hne]
  cases hl : List.lookup k' l with
  | some b => rfl
  | none => simp [List.lookup_cons, show (k' == k) = false from by simpa using hne]

theorem lookup_eraseKey_append_self (k : String) (l : List (String × β)) (e : β) :
    List.lookup k (eraseKey k l ++ [(k, e)]) = some e := by
  rw [List.lookup_append, lookup_eraseKey_self]
  simp

theorem foldl_eraseKey_sublist (ks : List String) (l : List (String × β)) :
    List.Sublist (ks.foldl (fun c k => eraseKey k c) l) l := by
  induction ks generalizing l with
  | nil => exact List.Sublist.refl l
  | cons k ks ih => exact (ih (eraseKey k l)).trans (eraseKey_sublist k l)

theorem foldl_eraseKey_eq_filter (ks : List String) (l : List (String × β)) :
    ks.foldl (fun c k => eraseKey k c) l
      = l.filter (fun p => ks.all (fun j => p.1 != j)) := by
  induction ks generalizing l with
  | nil => simp
  | cons k ks ih =>
      simp only [List.foldl_cons]
      rw [ih, eraseKey, List.filter_filter]
      apply List.filter_congr
      intro p hp
      simp [List.all_cons, Bool.and_comm]

end CacheService

/-! ### Recency-order lemmas -/

namespace CacheService

variable {V : Type}

theorem recency_nil (st : List (String × Nat)) (t : Nat) :
    recencyList st t ([] : List (String × Entry V)) :=
  ⟨List.Pairwise.nil, by simp⟩

theorem recency_mono_tick {st : List (String × Nat)} {t t' : Nat}
    {c : List (String × Entry V)} (h : recencyList st t c) (ht : t ≤ t') :
    recencyList st t' c := by
  refine ⟨h.1, fun p hp => ?_⟩
  obtain ⟨s, hs, hlt⟩ := h.2 p hp
  exact ⟨s, hs, lt_of_lt_of_le hlt ht⟩

theorem recency_sublist {st : List (String × Nat)} {t : Nat}
    {c c' : List (String × Entry V)} (hs : List.Sublist c' c)
    (h : recencyList st t c) : recencyList st t c' :=
  ⟨h.1.sublist hs, fun p hp => h.2 p (hs.subset hp)⟩

theorem stampOf_cons_self (k : String) (t : Nat) (st : List (String × Nat)) :
    stampOf ((k, t) :: st) k = t := by
  simp [stampOf]

theorem stampOf_cons_ne {k j : String} (h : j ≠ k) (t : Nat)
    (st : List (String × Nat)) : stampOf ((k, t) :: st) j = stampOf st j := by
  simp [stampOf, List.lookup_cons, show (j == k) = false from by simpa using h]

theorem recency_touch {st : List (String × Nat)} {t : Nat}
    {c : List (String × Entry V)} (h : recencyList st t c) (k : String)
    (e : Entry V) :
    recencyList ((k, t) :: st) (t + 1) (eraseKey k c ++ [(k, e)]) := by
  obtain ⟨hpw, hstamp⟩ := h
  constructor
  · rw [List.pairwise_append]
    refine ⟨?_, List.pairwise_singleton _ _, ?_⟩
    · have hpw' : (eraseKey k c).Pairwise
          (fun p q => stampOf st p.1 < stampOf st q.1) :=
        hpw.sublist (eraseKey_sublist k c)
      refine hpw'.imp_of_mem ?_
      intro p q hp hq hlt
      rw [stampOf_cons_ne (mem_eraseKey.mp hp).2,
        stampOf_cons_ne (mem_eraseKey.mp hq).2]
      exact hlt
    · intro p hp b hb
      rw [List.mem_singleton] at hb
      subst hb
      rw [stampOf_cons_ne (mem_eraseKey.mp hp).2, stampOf_cons_self]
      obtain ⟨s, hs, hlt⟩ := hstamp p (mem_eraseKey.mp hp).1
      simpa [stampOf, hs] using hlt
  · intro p hp
    rcases List.mem_append.mp hp with hp' | hp'
    · obtain ⟨s, hs, hlt⟩ := hstamp p (mem_eraseKey.mp hp').1
      refine ⟨s, ?_, Nat.lt_succ_of_lt hlt⟩
      simpa [List.lookup_cons,
        show (p.1 == k) = false from by simpa using (mem_eraseKey.mp hp').2]
        using hs
    · rw [List.mem_singleton] at hp'
      subst hp'
      exact ⟨t, by simp, Nat.lt_succ_self t⟩

/-- Any enabled `set` rewrites the cache to
`eraseKey k c₁ ++ [(k, fresh entry)]` for some sublist `c₁` of the old
cache (the whole cache, or its tail after an LRU eviction). -/
theorem set_cache_shape (cfg : Cfg) (n : Int) (k : String) (v : V)
    (t : Option Int) (σ : CacheState V) (hen : cfg.CACHE_ENABLED = true) :
    ∃ c1, List.Sublist c1 σ.cache ∧
      (set cfg n k v t σ).cache
        = eraseKey k c1 ++ [(k, ⟨v, n + t.getD cfg.CACHE_TTL_SECONDS, n⟩)] := by
  obtain ⟨c, sh, sm, sev, ss⟩ := σ
  by_cases hcond : ((List.lookup k c).isNone
      && decide (cfg.MAX_CACHE_SIZE ≤ c.length)) = true
  · cases c with
    | nil =>
        refine ⟨[], List.nil_sublist _, ?_⟩
        simp [set, hen, hcond, evictLru]
    | cons x rest =>
        refine ⟨rest, List.sublist_cons_self x rest, ?_⟩
        simp only [List.length_cons] at hcond
        simp [set, hen, hcond, evictLru]
  · refine ⟨c, List.Sublist.refl _, ?_⟩
    simp [set, hen, hcond, evictLru]

theorem gstep_cs (cfg : Cfg) (g : GState V) (op : Op V) :
    (gstep cfg g op).cs = step cfg g.cs op := by
  cases op <;> rfl

theorem grun_cs (cfg : Cfg) (ops : List (Op V)) (g : GState V) :
    (grun cfg ops g).cs = run cfg ops g.cs := by
  induction ops generalizing g with
  | nil => rfl
  | cons op ops ih =>
      show (grun cfg ops (gstep cfg g op)).cs = run cfg ops (step cfg g.cs op)
      rw [ih, gstep_cs]

theorem gstep_inv (cfg : Cfg) (g : GState V) (op : Op V)
    (h : recencyInv g) : recencyInv (gstep cfg g op) := by
  cases op with
  | set k v t n =>
      by_cases hen : cfg.CACHE_ENABLED = true
      · obtain ⟨c1, hsub, hc⟩ := set_cache_shape cfg n k v t g.cs hen
        show recencyList _ _ _
        simp only [gstep, hen, if_true]
        rw [hc]
        exact recency_touch (recency_sublist hsub h) k _
      · have hen' : cfg.CACHE_ENABLED = false := by simpa using hen
        have hs : set cfg n k v t g.cs = g.cs := by simp [set, hen']
        show recencyList _ _ _
        simp only [gstep, hen', if_false]
        rw [hs]
        exact recency_mono_tick h (Nat.le_succ _)
  | get k n =>
      by_cases hen : cfg.CACHE_ENABLED = true
      · cases hl : g.cs.cache.lookup k with
        | none =>
            have hg : get cfg n k g.cs
                = (none, { g.cs with misses := g.cs.misses + 1 }) := by
              simp [get, hen, hl]
            show recencyList _ _ _
            simp only [gstep, hg]
            exact recency_mono_tick h (Nat.le_succ _)
        | some e =>
            by_cases hexp : isExpired n e = true
            · have hg : get cfg n k g.cs
                  = (none, { g.cs with cache := eraseKey k g.cs.cache, misses := g.cs.misses + 1 }) := by
                simp [get, hen, hl, hexp]
              show recencyList _ _ _
              simp only [gstep, hg]
              exact recency_mono_tick
                (recency_sublist (eraseKey_sublist k g.cs.cache) h)
                (Nat.le_succ _)
            · have hg : get cfg n k g.cs
                  = (some e.value,
                     { g.cs with cache := eraseKey k g.cs.cache ++ [(k, e)], hits := g.cs.hits + 1 }) := by
                simp [get, hen, hl, hexp]
              show recencyList _ _ _
              simp only [gstep, hg]
              exact recency_touch h k e
      · have hen' : cfg.CACHE_ENABLED = false := by simpa using hen
        have hg : get cfg n k g.cs = (none, g.cs) := by simp [get, hen']
        show recencyList _ _ _
        simp only [gstep, hg]
        exact recency_mono_tick h (Nat.le_succ _)
  | delete k =>
      show recencyList _ _ _
      simp only [gstep, step, delete]
      exact recency_mono_tick
        (recency_sublist (eraseKey_sublist k g.cs.cache) h) (Nat.le_succ _)
  | clear =>
      show recencyList _ _ _
      simp only [gstep, step, clear]
      exact recency_mono_tick (recency_nil _ _) (Nat.le_succ _)
  | size n =>
      show recencyList _ _ _
      simp only [gstep, step, size, purgeExpired]
      exact recency_mono_tick
        (recency_sublist (foldl_eraseKey_sublist _ _) h) (Nat.le_succ _)
  | cleanup n =>
      show recencyList _ _ _
      simp only [gstep, step, cleanup_expired, purgeExpired]
      exact recency_mono_tick
        (recency_sublist (foldl_eraseKey_sublist _ _) h) (Nat.le_succ _)

theorem initG_inv : recencyInv (initG : GState V) :=
  recency_nil _ _

theorem grun_inv (cfg : Cfg) (ops : List (Op V)) (g : GState V)
    (h : recencyInv g) : recencyInv (grun cfg ops g) := by
  induction ops generalizing g with
  | nil => exact h
  | cons op ops ih => exact ih (gstep cfg g op) (gstep_inv cfg g op h)

end CacheService

/-! ### Key uniqueness (dict invariant) and capacity lemmas -/

namespace CacheService

variable {V β : Type}

theorem not_mem_keys_eraseKey (k : String) (l : List (String × β)) :
    k ∉ (eraseKey k l).map Prod.fst := by
  intro hmem
  obtain ⟨p, hp, hpk⟩ := List.mem_map.mp hmem
  exact (mem_eraseKey.mp hp).2 hpk

theorem keysNodup_sublist {l l' : List (String × β)} (hs : List.Sublist l' l)
    (h : (l.map Prod.fst).Nodup) : (l'.map Prod.fst).Nodup :=
  h.sublist (hs.map Prod.fst)

theorem keysNodup_touch {l c1 : List (String × β)} (hs : List.Sublist c1 l)
    (h : (l.map Prod.fst).Nodup) (k : String) (e : β) :
    ((eraseKey k c1 ++ [(k, e)]).map Prod.fst).Nodup := by
  rw [List.map_append, List.nodup_append]
  refine ⟨keysNodup_sublist ((eraseKey_sublist k c1).trans hs) h, by simp, ?_⟩
  intro a ha hb
  simp only [List.map_cons, List.map_nil, List.mem_singleton] at hb
  subst hb
  exact not_mem_keys_eraseKey a c1 ha

/-- The three possible cache shapes after a `get`: untouched (disabled or
plain miss), key erased (expired hit), or key moved to the back (hit). -/
theorem get_snd_cache (cfg : Cfg) (n : Int) (k : String) (σ : CacheState V) :
    (get cfg n k σ).2.cache = σ.cache ∨
    (get cfg n k σ).2.cache = eraseKey k σ.cache ∨
    ∃ e, List.lookup k σ.cache = some e ∧
      (get cfg n k σ).2.cache = eraseKey k σ.cache ++ [(k, e)] := by
  by_cases hen : cfg.CACHE_ENABLED = true
  · cases hl : σ.cache.lookup k with
    | none => left; simp [get, hen, hl]
    | some e =>
        by_cases hexp : isExpired n e = true
        · right; left; simp [get, hen, hl, hexp]
        · right; right; exact ⟨e, rfl, by simp [get, hen, hl, hexp]⟩
  · left
    simp [get, show cfg.CACHE_ENABLED = false from by simpa using hen]

/-- `set` when the branch `key not in cache and len >= MAX` is taken on a
non-empty cache: the front (LRU) entry is evicted and the fresh entry is
appended. -/
theorem set_eq_of_evict (cfg : Cfg) (n : Int) (k : String) (v : V)
    (t : Option Int) (σ : CacheState V) (x : String × Entry V)
    (rest : List (String × Entry V)) (hen : cfg.CACHE_ENABLED = true)
    (hiso : σ.cache.lookup k = none)
    (hfull : cfg.MAX_CACHE_SIZE ≤ σ.cache.length)
    (hσ : σ.cache = x :: rest) :
    set cfg n k v t σ
      = { σ with
          cache := eraseKey k rest
            ++ [(k, ⟨v, n + t.getD cfg.CACHE_TTL_SECONDS, n⟩)],
          evictions := σ.evictions + 1,
          sets := σ.sets + 1 } := by
  obtain ⟨c, sh, sm, sev, ss⟩ := σ
  simp only at hσ
  subst hσ
  simp only [List.length_cons] at hfull
  simp only at hiso
  simp [set, hen, hiso, evictLru, decide_eq_true hfull]

/-- `set` when no eviction happens (key present, or cache below capacity):
the key's binding is replaced and moved to the back. -/
theorem set_eq_of_noevict (cfg : Cfg) (n : Int) (k : String) (v : V)
    (t : Option Int) (σ : CacheState V) (hen : cfg.CACHE_ENABLED = true)
    (hcond : ((σ.cache.lookup k).isNone
      && decide (cfg.MAX_CACHE_SIZE ≤ σ.cache.length)) = false) :
    set cfg n k v t σ
      = { σ with
          cache := eraseKey k σ.cache
            ++ [(k, ⟨v, n + t.getD cfg.CACHE_TTL_SECONDS, n⟩)],
          sets := σ.sets + 1 } := by
  obtain ⟨c, sh, sm, sev, ss⟩ := σ
  simp only at hcond
  simp [set, hen, hcond]

theorem step_keysNodup (cfg : Cfg) (σ : CacheState V) (op : Op V)
    (h : (σ.cache.map Prod.fst).Nodup) :
    ((step cfg σ op).cache.map Prod.fst).Nodup := by
  cases op with
  | set k v t n =>
      by_cases hen : cfg.CACHE_ENABLED = true
      · obtain ⟨c1, hsub, hc⟩ := set_cache_shape cfg n k v t σ hen
        show ((set cfg n k v t σ).cache.map Prod.fst).Nodup
        rw [hc]
        exact keysNodup_touch hsub h k _
      · have hs : set cfg n k v t σ = σ := by
          simp [set, show cfg.CACHE_ENABLED = false from by simpa using hen]
        show ((set cfg n k v t σ).cache.map Prod.fst).Nodup
        rw [hs]
        exact h
  | get k n =>
      show (((get cfg n k σ).2.cache).map Prod.fst).Nodup
      rcases get_snd_cache cfg n k σ with hc | hc | ⟨e, -, hc⟩
      · rw [hc]; exact h
      · rw [hc]; exact keysNodup_sublist (eraseKey_sublist k σ.cache) h
      · rw [hc]; exact keysNodup_touch (List.Sublist.refl _) h k e
  | delete k =>
      exact keysNodup_sublist (eraseKey_sublist k σ.cache) h
  | clear => simp [step, clear]
  | size n =>
      exact keysNodup_sublist (foldl_eraseKey_sublist _ _) h
  | cleanup n =>
      exact keysNodup_sublist (foldl_eraseKey_sublist _ _) h

/-- Reachable states have duplicate-free keys (the `OrderedDict`
invariant). -/
theorem run_keysNodup (cfg : Cfg) (ops : List (Op V)) :
    ((run cfg ops initState).cache.map Prod.fst).Nodup := by
  have h : ∀ σ : CacheState V, (σ.cache.map Prod.fst).Nodup →
      ((run cfg ops σ).cache.map Prod.fst).Nodup := by
    induction ops with
    | nil => exact fun σ h => h
    | cons op ops ih => exact fun σ h => ih _ (step_keysNodup cfg σ op h)
  exact h initState (by simp [initState])

theorem step_length_le (cfg : Cfg) (hcap : 1 ≤ cfg.MAX_CACHE_SIZE)
    (σ : CacheState V) (op : Op V)
    (h : σ.cache.length ≤ cfg.MAX_CACHE_SIZE) :
    (step cfg σ op).cache.length ≤ cfg.MAX_CACHE_SIZE := by
  cases op with
  | set k v t n =>
      show (set cfg n k v t σ).cache.length ≤ _
      by_cases hen : cfg.CACHE_ENABLED = true
      · cases hiso : σ.cache.lookup k with
        | some e =>
            have hcond : ((σ.cache.lookup k).isNone
                && decide (cfg.MAX_CACHE_SIZE ≤ σ.cache.length)) = false := by
              simp [hiso]
            rw [set_eq_of_noevict cfg n k v t σ hen hcond]
            have h1 := length_eraseKey_lt hiso
            simp only [List.length_append, List.length_cons, List.length_nil]
            omega
        | none =>
            by_cases hfull : cfg.MAX_CACHE_SIZE ≤ σ.cache.length
            · cases hσ : σ.cache with
              | nil =>
                  rw [hσ] at hfull
                  simp at hfull
                  omega
              | cons x rest =>
                  rw [set_eq_of_evict cfg n k v t σ x rest hen hiso hfull hσ]
                  have h1 := length_eraseKey_le k rest
                  have h2 : σ.cache.length = rest.length + 1 := by
                    rw [hσ]; rfl
                  simp only [List.length_append, List.length_cons,
                    List.length_nil]
                  omega
            · have hcond : ((σ.cache.lookup k).isNone
                  && decide (cfg.MAX_CACHE_SIZE ≤ σ.cache.length)) = false := by
                simp [hiso, hfull]
              rw [set_eq_of_noevict cfg n k v t σ hen hcond]
              have h1 := length_eraseKey_le k σ.cache
              simp only [List.length_append, List.length_cons, List.length_nil]
              omega
      · have hs : set cfg n k v t σ = σ := by
          simp [set, show cfg.CACHE_ENABLED = false from by simpa using hen]
        rw [hs]
        exact h
  | get k n =>
      show ((get cfg n k σ).2.cache).length ≤ _
      rcases get_snd_cache cfg n k σ with hc | hc | ⟨e, hl, hc⟩
      · rw [hc]; exact h
      · rw [hc]; exact le_trans (length_eraseKey_le k σ.cache) h
      · rw [hc]
        have h1 := length_eraseKey_lt hl
        simp only [List.length_append, List.length_cons, List.length_nil]
        omega
  | delete k =>
      exact le_trans (length_eraseKey_le k σ.cache) h
  | clear => simp [step, clear]
  | size n =>
      exact le_trans (List.Sublist.length_le (foldl_eraseKey_sublist _ _)) h
  | cleanup n =>
      exact le_trans (List.Sublist.length_le (foldl_eraseKey_sublist _ _)) h

end CacheService

/-! ### Sweep, TTL and statistics lemmas -/

namespace CacheService

variable {V : Type}

/-- On a key-nodup cache the deletion loop of `cleanup_expired`/`size`
removes exactly the expired entries, in order. -/
theorem purgeExpired_eq_filter {now : Int} {l : List (String × Entry V)}
    (hnd : (l.map Prod.fst).Nodup) :
    purgeExpired now l = l.filter (fun p => !isExpired now p.2) := by
  unfold purgeExpired
  rw [foldl_eraseKey_eq_filter]
  apply List.filter_congr
  intro p hp
  by_cases hexp : isExpired now p.2 = true
  · have hmem : p.1 ∈ expiredKeys now l :=
      List.mem_map_of_mem Prod.fst (List.mem_filter.mpr ⟨hp, hexp⟩)
    have hall : (expiredKeys now l).all (fun j => p.1 != j) = false :=
      List.all_eq_false.mpr ⟨p.1, hmem, by simp⟩
    rw [hall, hexp]
    rfl
  · have hfalse : isExpired now p.2 = false := by simpa using hexp
    have hall : (expiredKeys now l).all (fun j => p.1 != j) = true := by
      rw [List.all_eq_true]
      intro j hj
      unfold expiredKeys at hj
      obtain ⟨q, hq, rfl⟩ := List.mem_map.mp hj
      obtain ⟨hqmem, hqexp⟩ := List.mem_filter.mp hq
      have hne : p.1 ≠ q.1 := by
        intro he
        have heq := eq_of_mem_of_nodup_keys hnd hp hqmem he
        rw [← heq] at hqexp
        rw [hqexp] at hfalse
        cases hfalse
      simpa [bne_iff_ne] using hne
    rw [hall, hfalse]
    rfl

theorem step_entriesOk (cfg : Cfg) (σ : CacheState V) (op : Op V)
    (hop : ttlOk cfg op) (h : entriesOk σ) : entriesOk (step cfg σ op) := by
  cases op with
  | set k v t n =>
      by_cases hen : cfg.CACHE_ENABLED = true
      · obtain ⟨c1, hsub, hc⟩ := set_cache_shape cfg n k v t σ hen
        intro p hp
        have hp' : p ∈ eraseKey k c1
            ++ [(k, ⟨v, n + t.getD cfg.CACHE_TTL_SECONDS, n⟩)] := by
          rw [← hc]
          exact hp
        rcases List.mem_append.mp hp' with hh | hh
        · exact h p (hsub.subset (mem_eraseKey.mp hh).1)
        · rw [List.mem_singleton] at hh
          subst hh
          exact le_add_of_nonneg_right hop
      · have hs : set cfg n k v t σ = σ := by
          simp [set, show cfg.CACHE_ENABLED = false from by simpa using hen]
        intro p hp
        rw [show step cfg σ (Op.set k v t n) = set cfg n k v t σ from rfl,
          hs] at hp
        exact h p hp
  | get k n =>
      intro p hp
      have hp' : p ∈ (get cfg n k σ).2.cache := hp
      rcases get_snd_cache cfg n k σ with hc | hc | ⟨e, hl, hc⟩
      · rw [hc] at hp'
        exact h p hp'
      · rw [hc] at hp'
        exact h p ((eraseKey_sublist k σ.cache).subset hp')
      · rw [hc] at hp'
        rcases List.mem_append.mp hp' with hh | hh
        · exact h p ((eraseKey_sublist k σ.cache).subset hh)
        · rw [List.mem_singleton] at hh
          subst hh
          exact h (k, e) (lookup_mem hl)
  | delete k =>
      intro p hp
      exact h p ((eraseKey_sublist k σ.cache).subset hp)
  | clear =>
      intro p hp
      simp [step, clear] at hp
  | size n =>
      intro p hp
      exact h p ((foldl_eraseKey_sublist _ _).subset hp)
  | cleanup n =>
      intro p hp
      exact h p ((foldl_eraseKey_sublist _ _).subset hp)

end CacheService

namespace CacheService

variable {V : Type}

theorem run_entriesOk (cfg : Cfg) (ops : List (Op V))
    (hops : ∀ op ∈ ops, ttlOk cfg op) : entriesOk (run cfg ops initState) := by
  have h : ∀ σ : CacheState V, entriesOk σ → entriesOk (run cfg ops σ) := by
    induction ops with
    | nil => exact fun σ h => h
    | cons op ops ih =>
        intro σ h
        exact ih (fun o ho => hops o (List.mem_cons_of_mem op ho)) _
          (step_entriesOk cfg σ op (hops op (List.mem_cons_self op ops)) h)
  exact h initState (by intro p hp; simp [initState] at hp)

theorem set_preserves_reqs (cfg : Cfg) (n : Int) (k : String) (v : V)
    (t : Option Int) (σ : CacheState V) :
    (set cfg n k v t σ).hits = σ.hits ∧ (set cfg n k v t σ).misses = σ.misses := by
  obtain ⟨c, sh, sm, sev, ss⟩ := σ
  by_cases hen : cfg.CACHE_ENABLED = true
  · by_cases hcond : ((List.lookup k c).isNone
        && decide (cfg.MAX_CACHE_SIZE ≤ c.length)) = true
    · cases c with
      | nil => constructor <;> simp [set, hen, hcond, evictLru]
      | cons x rest =>
          simp only [List.length_cons] at hcond
          constructor <;> simp [set, hen, hcond, evictLru]
    · constructor <;> simp [set, hen, hcond]
  · have hen' : cfg.CACHE_ENABLED = false := by simpa using hen
    constructor <;> simp [set, hen']

theorem get_total (cfg : Cfg) (n : Int) (k : String) (σ : CacheState V)
    (hen : cfg.CACHE_ENABLED = true) :
    total_requests (get cfg n k σ).2 = total_requests σ + 1 := by
  cases hl : σ.cache.lookup k with
  | none => simp [get, hen, hl, total_requests]; omega
  | some e =>
      by_cases hexp : isExpired n e = true
      · simp [get, hen, hl, hexp, total_requests]; omega
      · simp [get, hen, hl, hexp, total_requests]; omega

theorem step_total (cfg : Cfg) (hen : cfg.CACHE_ENABLED = true)
    (σ : CacheState V) (op : Op V) :
    total_requests (step cfg σ op)
      = total_requests σ + (if isGetOp op then 1 else 0) := by
  cases op with
  | set k v t n =>
      have h := set_preserves_reqs cfg n k v t σ
      simp [step, isGetOp, total_requests, h.1, h.2]
  | get k n => simp [step, isGetOp, get_total cfg n k σ hen]
  | delete k => simp [step, isGetOp, delete, total_requests]
  | clear => simp [step, isGetOp, clear, total_requests]
  | size n => simp [step, isGetOp, size, total_requests]
  | cleanup n => simp [step, isGetOp, cleanup_expired, total_requests]

theorem run_total (cfg : Cfg) (hen : cfg.CACHE_ENABLED = true)
    (ops : List (Op V)) :
    total_requests (run cfg ops initState)
      = ops.countP (fun op => isGetOp op) := by
  have h : ∀ σ : CacheState V, total_requests (run cfg ops σ)
      = total_requests σ + ops.countP (fun op => isGetOp op) := by
    induction ops with
    | nil => intro σ; simp [run, total_requests]
    | cons op ops ih =>
        intro σ
        have h1 : run cfg (op :: ops) σ = run cfg ops (step cfg σ op) := rfl
        rw [h1, ih, step_total cfg hen, List.countP_cons]
        by_cases hg : isGetOp op = true
        · simp only [hg, if_true]
          omega
        · simp only [hg, if_false]
          omega
  rw [h initState]
  simp [initState, total_requests]

end CacheService

/-! ### Claim theorems -/

namespace CacheService

variable {V : Type}

/-- C10: when caching is administratively disabled, `get` returns a miss
and leaves the entire state — cache contents and every statistics counter,
including the miss counter — unchanged. -/
theorem disabled_get_leaves_stats_unchanged (cfg : Cfg) (now : Int)
    (k : String) (σ : CacheState V) (hdis : cfg.CACHE_ENABLED = false) :
    get cfg now k σ = (none, σ) := by
  simp [get, hdis]

/-- Witness for C10: a disabled `get` on a populated state with non-zero
counters returns a miss and changes nothing. -/
theorem disabled_get_leaves_stats_unchanged_witness :
    cfgDisabled.CACHE_ENABLED = false ∧
    get cfgDisabled 0 "a" (⟨[("a", ⟨1, 10, 0⟩)], 3, 4, 0, 1⟩ : CacheState Nat)
      = (none, ⟨[("a", ⟨1, 10, 0⟩)], 3, 4, 0, 1⟩) :=
  ⟨rfl, disabled_get_leaves_stats_unchanged cfgDisabled 0 "a" _ rfl⟩

/-- C9: a `get` that hits (key present and not expired) re-inserts the very
same entry at the most-recently-used position: `expires_at` and
`created_at` are untouched, the value is returned as stored, only the hit
counter is incremented, and every other key's binding is unchanged. -/
theorem hit_does_not_extend_lifetime (cfg : Cfg) (now : Int) (k : String)
    (σ : CacheState V) (e : Entry V)
    (hen : cfg.CACHE_ENABLED = true)
    (hl : σ.cache.lookup k = some e)
    (hlive : isExpired now e = false) :
    get cfg now k σ
      = (some e.value,
         { σ with cache := eraseKey k σ.cache ++ [(k, e)], hits := σ.hits + 1 }) ∧
    List.lookup k (get cfg now k σ).2.cache = some e ∧
    (∀ k', k' ≠ k →
      List.lookup k' (get cfg now k σ).2.cache = List.lookup k' σ.cache) := by
  have hg : get cfg now k σ
      = (some e.value,
         { σ with cache := eraseKey k σ.cache ++ [(k, e)], hits := σ.hits + 1 }) := by
    simp [get, hen, hl, hlive]
  refine ⟨hg, ?_, ?_⟩
  · rw [hg]
    exact lookup_eraseKey_append_self k σ.cache e
  · intro k' hk'
    rw [hg]
    exact lookup_eraseKey_append hk' σ.cache e

/-- Witness for C9: after `set(a)`, `set(b)` (capacity 2), the hit
`get(a)` at time 2 returns `"X"` and keeps `a`'s entry fields intact. -/
theorem hit_does_not_extend_lifetime_witness :
    (run cfgCap2 [Op.set "a" "X" none 0, Op.set "b" "Y" none 1]
        initState).cache.lookup "a" = some ⟨"X", 1000, 0⟩ ∧
    isExpired 2 (⟨"X", 1000, 0⟩ : Entry String) = false ∧
    List.lookup "a"
      (get cfgCap2 2 "a"
        (run cfgCap2 [Op.set "a" "X" none 0, Op.set "b" "Y" none 1]
          initState)).2.cache = some ⟨"X", 1000, 0⟩ := by
  have h := hit_does_not_extend_lifetime cfgCap2 2 "a"
    (run cfgCap2 [Op.set "a" "X" none 0, Op.set "b" "Y" none 1] initState)
    ⟨"X", 1000, 0⟩ rfl (by decide) (by decide)
  exact ⟨by decide, by decide, h.2.1⟩

/-- C5: overwriting an already-present key at full capacity evicts
nothing: the eviction counter is unchanged, every other key's binding is
untouched, and the number of entries is unchanged. -/
theorem overwrite_does_not_evict (cfg : Cfg) (now : Int) (k : String)
    (v : V) (t : Option Int) (σ : CacheState V) (e : Entry V)
    (hen : cfg.CACHE_ENABLED = true)
    (hl : σ.cache.lookup k = some e)
    (hnd : (σ.cache.map Prod.fst).Nodup)
    (hfull : σ.cache.length = cfg.MAX_CACHE_SIZE) :
    (set cfg now k v t σ).evictions = σ.evictions ∧
    (∀ k', k' ≠ k →
      List.lookup k' (set cfg now k v t σ).cache = List.lookup k' σ.cache) ∧
    (set cfg now k v t σ).cache.length = σ.cache.length := by
  have hcond : ((σ.cache.lookup k).isNone
      && decide (cfg.MAX_CACHE_SIZE ≤ σ.cache.length)) = false := by
    simp [hl]
  rw [set_eq_of_noevict cfg now k v t σ hen hcond]
  refine ⟨rfl, ?_, ?_⟩
  · intro k' hk'
    exact lookup_eraseKey_append hk' σ.cache _
  · show (eraseKey k σ.cache ++ [(k, _)]).length = σ.cache.length
    rw [List.length_append]
    have := length_eraseKey_nodup hnd hl
    simp only [List.length_cons, List.length_nil]
    omega

/-- Witness for C5: overwriting `a` in the full `{a, b}` store (capacity
2) keeps `b`'s binding and evicts nothing. -/
theorem overwrite_does_not_evict_witness :
    (set cfgCap2 5 "a" "W" none
        (run cfgCap2 [Op.set "a" "X" none 0, Op.set "b" "Y" none 1]
          initState)).evictions
      = (run cfgCap2 [Op.set "a" "X" none 0, Op.set "b" "Y" none 1]
          initState).evictions ∧
    (∀ k', k' ≠ "a" →
      List.lookup k'
        (set cfgCap2 5 "a" "W" none
          (run cfgCap2 [Op.set "a" "X" none 0, Op.set "b" "Y" none 1]
            initState)).cache
        = List.lookup k'
            (run cfgCap2 [Op.set "a" "X" none 0, Op.set "b" "Y" none 1]
              initState).cache) ∧
    (set cfgCap2 5 "a" "W" none
        (run cfgCap2 [Op.set "a" "X" none 0, Op.set "b" "Y" none 1]
          initState)).cache.length
      = (run cfgCap2 [Op.set "a" "X" none 0, Op.set "b" "Y" none 1]
          initState).cache.length :=
  overwrite_does_not_evict cfgCap2 5 "a" "W" none _ ⟨"X", 1000, 0⟩
    rfl (by decide) (by decide) (by decide)

end CacheService

namespace CacheService

variable {V : Type}

/-- C3: lazy TTL expiry.  For a present key `k` with entry `e`: a `get`
strictly before the expiry time (`t1 < expires_at`) is a hit returning the
stored value and bumping only the hit counter; a `get` strictly after the
expiry time (`expires_at < t2`) removes the entry, bumps the miss counter
and returns a miss; after that expired-read miss the key is gone from the
store — and it stays gone through any later `size` call, so it is not
counted. -/
theorem lazy_ttl_expiry (cfg : Cfg) (k : String) (σ : CacheState V)
    (e : Entry V) (t1 t2 : Int)
    (hen : cfg.CACHE_ENABLED = true)
    (hl : σ.cache.lookup k = some e)
    (hbefore : t1 < e.expires_at)
    (hafter : e.expires_at < t2) :
    get cfg t1 k σ
      = (some e.value,
         { σ with cache := eraseKey k σ.cache ++ [(k, e)], hits := σ.hits + 1 }) ∧
    get cfg t2 k σ
      = (none, { σ with cache := eraseKey k σ.cache, misses := σ.misses + 1 }) ∧
    List.lookup k (get cfg t2 k σ).2.cache = none ∧
    ∀ n' : Int,
      List.lookup k ((size n' (get cfg t2 k σ).2).2).cache = none := by
  have hexp1 : isExpired t1 e = false := by
    simp only [isExpired, decide_eq_false_iff_not]
    omega
  have hexp2 : isExpired t2 e = true := by
    simp only [isExpired, decide_eq_true_eq]
    omega
  have hnone : List.lookup k (get cfg t2 k σ).2.cache = none := by
    have hc : (get cfg t2 k σ).2.cache = eraseKey k σ.cache := by
      simp [get, hen, hl, hexp2]
    rw [hc]
    exact lookup_eraseKey_self k σ.cache
  refine ⟨by simp [get, hen, hl, hexp1], by simp [get, hen, hl, hexp2],
    hnone, ?_⟩
  intro n'
  have hs : List.Sublist ((size n' (get cfg t2 k σ).2).2).cache
      ((get cfg t2 k σ).2.cache) := by
    show List.Sublist (purgeExpired n' (get cfg t2 k σ).2.cache) _
    exact foldl_eraseKey_sublist _ _
  exact hs.lookup_eq_none hnone

/-- Witness for C3: a key set with TTL 3600 at time 0 hits at time 3599
and misses (and is removed) at time 3601. -/
theorem lazy_ttl_expiry_witness :
    ((3599 : Int) < 3600 ∧ (3600 : Int) < 3601) ∧
    (get cfgDefault 3599 "a"
      (run cfgDefault [Op.set "a" (7 : Nat) none 0] initState)).1 = some 7 ∧
    (get cfgDefault 3601 "a"
      (run cfgDefault [Op.set "a" (7 : Nat) none 0] initState)).1 = none ∧
    List.lookup "a"
      (get cfgDefault 3601 "a"
        (run cfgDefault [Op.set "a" (7 : Nat) none 0] initState)).2.cache
      = none := by
  have h := lazy_ttl_expiry cfgDefault "a"
    (run cfgDefault [Op.set "a" (7 : Nat) none 0] initState)
    ⟨7, 3600, 0⟩ 3599 3601 rfl (by decide) (by decide) (by decide)
  refine ⟨⟨by decide, by decide⟩, ?_, ?_, h.2.2.1⟩
  · rw [h.1]
  · rw [h.2.1]

/-- C7: one `cleanup_expired` call removes exactly the expired entries
(those with `now > expires_at`) and no others: it returns their number N,
keeps every live entry untouched (in order), and the resulting store holds
exactly the M live entries. -/
theorem sweep_convergence (now : Int) (σ : CacheState V) (N M : Nat)
    (hnd : (σ.cache.map Prod.fst).Nodup)
    (hN : σ.cache.countP (fun p => isExpired now p.2) = N)
    (hM : σ.cache.countP (fun p => !isExpired now p.2) = M) :
    (cleanup_expired now σ).1 = N ∧
    (cleanup_expired now σ).2.cache
      = σ.cache.filter (fun p => !isExpired now p.2) ∧
    (cleanup_expired now σ).2.cache.length = M ∧
    (∀ p ∈ σ.cache, isExpired now p.2 = false →
      p ∈ (cleanup_expired now σ).2.cache) ∧
    (∀ p ∈ (cleanup_expired now σ).2.cache,
      p ∈ σ.cache ∧ isExpired now p.2 = false) := by
  have hpurge : (cleanup_expired now σ).2.cache
      = σ.cache.filter (fun p => !isExpired now p.2) := by
    show purgeExpired now σ.cache = _
    exact purgeExpired_eq_filter hnd
  have hcount : (cleanup_expired now σ).1 = N := by
    show (expiredKeys now σ.cache).length = N
    rw [expiredKeys, List.length_map, ← List.countP_eq_length_filter]
    exact hN
  refine ⟨hcount, hpurge, ?_, ?_, ?_⟩
  · rw [hpurge, ← List.countP_eq_length_filter]
    exact hM
  · intro p hp hlive
    rw [hpurge, List.mem_filter]
    exact ⟨hp, by rw [hlive]; rfl⟩
  · intro p hp
    rw [hpurge, List.mem_filter] at hp
    refine ⟨hp.1, ?_⟩
    cases hb : isExpired now p.2
    · rfl
    · have := hp.2
      rw [hb] at this
      cases this

/-- Witness for C7: with one entry expired at time 500 and one live, the
sweep removes exactly the expired one and returns 1. -/
theorem sweep_convergence_witness :
    ((run cfgDefault [Op.set "a" (1 : Nat) (some 10) 0,
        Op.set "b" 2 (some 1000) 0] initState).cache.countP
      (fun p => isExpired 500 p.2) = 1) ∧
    (cleanup_expired 500
      (run cfgDefault [Op.set "a" (1 : Nat) (some 10) 0,
        Op.set "b" 2 (some 1000) 0] initState)).1 = 1 ∧
    (cleanup_expired 500
      (run cfgDefault [Op.set "a" (1 : Nat) (some 10) 0,
        Op.set "b" 2 (some 1000) 0] initState)).2.cache.length = 1 := by
  have h := sweep_convergence 500
    (run cfgDefault [Op.set "a" (1 : Nat) (some 10) 0,
      Op.set "b" 2 (some 1000) 0] initState) 1 1
    (by decide) (by decide) (by decide)
  exact ⟨by decide, h.1, h.2.2.1⟩

end CacheService

namespace CacheService

variable {V : Type}

/-- C1: LRU eviction correctness.  Run any trace from the empty store with
caching enabled; suppose the resulting store is at capacity with front
(least-recently-used) entry `(k0, e0)` and `k` is a fresh key.  Then
(i) the ghost-instrumented run agrees with the plain run, (ii) `set k`
evicts exactly the front key `k0` (the rest of the store plus the fresh
entry remain, and the eviction counter is bumped), and (iii) `k0` is the
least recently touched key: its last-touch stamp — the index of the last
enabled `set` or hit `get` on it — is strictly below that of every
surviving key. -/
theorem lru_eviction_evicts_least_recently_touched (cfg : Cfg)
    (ops : List (Op V)) (k0 : String) (e0 : Entry V)
    (rest : List (String × Entry V)) (k : String) (v : V) (t : Option Int)
    (now : Int)
    (hen : cfg.CACHE_ENABLED = true)
    (hcache : (grun cfg ops initG).cs.cache = (k0, e0) :: rest)
    (hfull : rest.length + 1 = cfg.MAX_CACHE_SIZE)
    (habs : List.lookup k ((k0, e0) :: rest) = none) :
    (grun cfg ops initG).cs = run cfg ops initState ∧
    set cfg now k v t (grun cfg ops initG).cs
      = { (grun cfg ops initG).cs with
          cache := rest
            ++ [(k, ⟨v, now + t.getD cfg.CACHE_TTL_SECONDS, now⟩)],
          evictions := (grun cfg ops initG).cs.evictions + 1,
          sets := (grun cfg ops initG).cs.sets + 1 } ∧
    ∀ p ∈ rest,
      stampOf (grun cfg ops initG).stamps k0
        < stampOf (grun cfg ops initG).stamps p.1 := by
  have hinv := grun_inv cfg ops initG initG_inv
  refine ⟨grun_cs cfg ops initG, ?_, ?_⟩
  · have habs' : List.lookup k (grun cfg ops initG).cs.cache = none := by
      rw [hcache]
      exact habs
    have hfull' : cfg.MAX_CACHE_SIZE
        ≤ (grun cfg ops initG).cs.cache.length := by
      rw [hcache]
      simp only [List.length_cons]
      omega
    rw [set_eq_of_evict cfg now k v t _ (k0, e0) rest hen habs' hfull' hcache]
    have hnone : List.lookup k rest = none := by
      rw [List.lookup_eq_none_iff] at habs ⊢
      intro p hp
      exact habs p (List.mem_cons_of_mem _ hp)
    rw [eraseKey_of_lookup_none hnone]
  · intro p hp
    have hpw := hinv.1
    rw [hcache] at hpw
    exact List.rel_of_pairwise_cons hpw hp

/-- Witness for C1: the spec's concrete scenario.  Capacity 2, TTL 1000:
after `set(a,"X")`, `set(b,"Y")`, `get(a)`, the key `b` is the LRU
(its stamp 1 is below `a`'s stamp 2); `set(c,"Z")` evicts `b`, the store
then holds exactly `{a, c}`, and `get(b)` misses. -/
theorem lru_eviction_evicts_least_recently_touched_witness :
    ((grun cfgCap2 scenarioOps initG).cs = run cfgCap2 scenarioOps initState ∧
     set cfgCap2 2 "c" "Z" none (grun cfgCap2 scenarioOps initG).cs
       = { (grun cfgCap2 scenarioOps initG).cs with
           cache := [("a", ⟨"X", 1000, 0⟩)]
             ++ [("c", ⟨"Z", 2 + (none : Option Int).getD
                   cfgCap2.CACHE_TTL_SECONDS, 2⟩)],
           evictions := (grun cfgCap2 scenarioOps initG).cs.evictions + 1,
           sets := (grun cfgCap2 scenarioOps initG).cs.sets + 1 } ∧
     ∀ p ∈ [("a", (⟨"X", 1000, 0⟩ : Entry String))],
       stampOf (grun cfgCap2 scenarioOps initG).stamps "b"
         < stampOf (grun cfgCap2 scenarioOps initG).stamps p.1) ∧
    (get cfgCap2 3 "b"
      (set cfgCap2 2 "c" "Z" none (grun cfgCap2 scenarioOps initG).cs)).1
      = none ∧
    (get cfgCap2 3 "b"
      (set cfgCap2 2 "c" "Z" none
        (grun cfgCap2 scenarioOps initG).cs)).2.cache.map Prod.fst
      = ["a", "c"] :=
  ⟨lru_eviction_evicts_least_recently_touched cfgCap2 scenarioOps "b"
      ⟨"Y", 1001, 1⟩ [("a", ⟨"X", 1000, 0⟩)] "c" "Z" none 2
      rfl (by decide) (by decide) (by decide),
   by decide, by decide⟩

/-- C8: eviction ignores expiry.  Setting a fresh key into a store at
capacity evicts the front (LRU) entry and bumps the eviction counter even
when that front entry is still live and some other entry `q` is already
expired; the expired `q` survives the `set` — expired entries count toward
capacity and `set` never purges them. -/
theorem eviction_ignores_expiry (cfg : Cfg) (now : Int) (k : String)
    (v : V) (t : Option Int) (σ : CacheState V) (k0 : String) (e0 : Entry V)
    (rest : List (String × Entry V)) (q : String × Entry V)
    (hen : cfg.CACHE_ENABLED = true)
    (hσ : σ.cache = (k0, e0) :: rest)
    (hfull : cfg.MAX_CACHE_SIZE ≤ σ.cache.length)
    (habs : σ.cache.lookup k = none)
    (hlive : isExpired now e0 = false)
    (hq : q ∈ rest) (hqexp : isExpired now q.2 = true) :
    (set cfg now k v t σ).cache
      = rest ++ [(k, ⟨v, now + t.getD cfg.CACHE_TTL_SECONDS, now⟩)] ∧
    (set cfg now k v t σ).evictions = σ.evictions + 1 ∧
    q ∈ (set cfg now k v t σ).cache := by
  have hnone : List.lookup k rest = none := by
    have habs' : List.lookup k ((k0, e0) :: rest) = none := by
      rw [← hσ]
      exact habs
    rw [List.lookup_eq_none_iff] at habs' ⊢
    intro p hp
    exact habs' p (List.mem_cons_of_mem _ hp)
  rw [set_eq_of_evict cfg now k v t σ (k0, e0) rest hen habs hfull hσ]
  show eraseKey k rest ++ _ = _ ∧ σ.evictions + 1 = σ.evictions + 1 ∧
    q ∈ eraseKey k rest ++ _
  rw [eraseKey_of_lookup_none hnone]
  exact ⟨rfl, rfl, List.mem_append_left _ hq⟩

/-- Witness for C8: store `[a (live, expires 1000), b (expired at 100,
expires 5)]` at capacity 2; `set(c)` at time 100 evicts the live LRU `a`
and keeps the expired `b`. -/
theorem eviction_ignores_expiry_witness :
    (set cfgCap2 100 "c" "Z" none
        (run cfgCap2 [Op.set "a" "X" none 0, Op.set "b" "Y" (some 5) 0]
          initState)).cache
      = [("b", ⟨"Y", 5, 0⟩)] ++ [("c", ⟨"Z", 1100, 100⟩)] ∧
    (set cfgCap2 100 "c" "Z" none
        (run cfgCap2 [Op.set "a" "X" none 0, Op.set "b" "Y" (some 5) 0]
          initState)).evictions
      = (run cfgCap2 [Op.set "a" "X" none 0, Op.set "b" "Y" (some 5) 0]
          initState).evictions + 1 ∧
    ("b", (⟨"Y", 5, 0⟩ : Entry String)) ∈
      (set cfgCap2 100 "c" "Z" none
        (run cfgCap2 [Op.set "a" "X" none 0, Op.set "b" "Y" (some 5) 0]
          initState)).cache :=
  eviction_ignores_expiry cfgCap2 100 "c" "Z" none _ "a" ⟨"X", 1000, 0⟩
    [("b", ⟨"Y", 5, 0⟩)] ("b", ⟨"Y", 5, 0⟩)
    rfl (by decide) (by decide) (by decide) (by decide) (by decide) (by decide)

end CacheService

namespace CacheService

variable {V : Type}

/-- C2 (amended): for every capacity `C ≥ 1` and every operation sequence
from the empty store, the store holds at most `C` entries after each
operation (any eviction happens during the insertion, never after — the
bound holds at every operation boundary, i.e. for every trace). -/
theorem capacity_invariant (cfg : Cfg) (hcap : 1 ≤ cfg.MAX_CACHE_SIZE)
    (ops : List (Op V)) :
    (run cfg ops initState).cache.length ≤ cfg.MAX_CACHE_SIZE := by
  have h : ∀ σ : CacheState V, σ.cache.length ≤ cfg.MAX_CACHE_SIZE →
      (run cfg ops σ).cache.length ≤ cfg.MAX_CACHE_SIZE := by
    induction ops with
    | nil => exact fun σ h => h
    | cons op ops ih => exact fun σ h => ih _ (step_length_le cfg hcap σ op h)
  exact h initState (by simp [initState])

/-- Witness for C2: after the capacity-2 scenario plus the eviction-forcing
fourth `set`, the store still holds at most 2 entries. -/
theorem capacity_invariant_witness :
    1 ≤ cfgCap2.MAX_CACHE_SIZE ∧
    (run cfgCap2 (scenarioOps ++ [Op.set "c" "Z" none 2])
        initState).cache.length ≤ cfgCap2.MAX_CACHE_SIZE :=
  ⟨by decide,
   capacity_invariant cfgCap2 (by decide) (scenarioOps ++ [Op.set "c" "Z" none 2])⟩

/-- Counterexample to C2 as stated ("for every capacity C"): with
`MAX_CACHE_SIZE = 0`, a single `set` leaves 1 entry in the store, which
exceeds the capacity 0 — `_evict_lru` on an empty dict is a no-op and the
insertion still happens. -/
theorem capacity_invariant_cap0_counterexample :
    ¬ ((run cfgCap0 [Op.set "a" (0 : Nat) none 0] initState).cache.length
        ≤ cfgCap0.MAX_CACHE_SIZE) := by
  decide

/-- C4 (amended): the reported hit rate is the *percentage*
`100 · H / (H + M)` (the code then rounds the float to two decimals),
`0` when `H + M = 0`; and `H + M` counts exactly the `get` operations of
the history (every enabled `get` records exactly one hit or one miss;
`set` and the other operations record neither). -/
theorem hit_rate_formula (cfg : Cfg) (ops : List (Op V))
    (hen : cfg.CACHE_ENABLED = true) :
    (0 < total_requests (run cfg ops initState) →
      hit_rate (run cfg ops initState)
        = ((run cfg ops initState).hits : ℚ)
            / (((run cfg ops initState).hits : ℚ)
                + ((run cfg ops initState).misses : ℚ)) * 100) ∧
    (total_requests (run cfg ops initState) = 0 →
      hit_rate (run cfg ops initState) = 0) ∧
    total_requests (run cfg ops initState)
      = ops.countP (fun op => isGetOp op) := by
  refine ⟨?_, ?_, run_total cfg hen ops⟩
  · intro hpos
    rw [hit_rate, if_pos hpos]
    have hcast : ((total_requests (run cfg ops initState) : ℚ))
        = ((run cfg ops initState).hits : ℚ)
            + ((run cfg ops initState).misses : ℚ) := by
      rw [total_requests]
      push_cast
      ring
    rw [hcast]
  · intro hzero
    rw [hit_rate, if_neg (by omega)]

/-- Witness for C4 (amended): one hit, no misses — the reported rate is
100, and the request total equals the single `get` of the trace. -/
theorem hit_rate_formula_witness :
    cfgDefault.CACHE_ENABLED = true ∧
    0 < total_requests
      (run cfgDefault [Op.set "a" (0 : Nat) none 0, Op.get "a" 0] initState) ∧
    hit_rate
      (run cfgDefault [Op.set "a" (0 : Nat) none 0, Op.get "a" 0] initState)
      = ((run cfgDefault [Op.set "a" (0 : Nat) none 0, Op.get "a" 0]
            initState).hits : ℚ)
          / (((run cfgDefault [Op.set "a" (0 : Nat) none 0, Op.get "a" 0]
                initState).hits : ℚ)
              + ((run cfgDefault [Op.set "a" (0 : Nat) none 0, Op.get "a" 0]
                    initState).misses : ℚ)) * 100 :=
  ⟨rfl, by decide,
   (hit_rate_formula cfgDefault
      [Op.set "a" (0 : Nat) none 0, Op.get "a" 0] rfl).1 (by decide)⟩

/-- Counterexample to C4 as stated: after one hit and no misses the code
reports `100` (a percentage), not `H/(H+M) = 1`. -/
theorem hit_rate_is_percentage_counterexample :
    hit_rate
      (run cfgDefault [Op.set "a" (0 : Nat) none 0, Op.get "a" 0] initState)
      ≠ ((run cfgDefault [Op.set "a" (0 : Nat) none 0, Op.get "a" 0]
            initState).hits : ℚ)
          / (((run cfgDefault [Op.set "a" (0 : Nat) none 0, Op.get "a" 0]
                initState).hits : ℚ)
              + ((run cfgDefault [Op.set "a" (0 : Nat) none 0, Op.get "a" 0]
                    initState).misses : ℚ)) := by
  have h1 : (run cfgDefault [Op.set "a" (0 : Nat) none 0, Op.get "a" 0]
      initState).hits = 1 := by decide
  have h2 : (run cfgDefault [Op.set "a" (0 : Nat) none 0, Op.get "a" 0]
      initState).misses = 0 := by decide
  simp only [hit_rate, total_requests, h1, h2]
  norm_num

/-- C6 (amended): whenever every `set` of the history uses a non-negative
effective TTL (explicit, or the configured default), every entry of the
resulting store satisfies `created_at ≤ expires_at`; with TTL 0 the two
are equal.  (The claim fails for negative TTLs, which the `ttl: int`
parameter admits — see the counterexample.) -/
theorem expires_at_ge_created_at (cfg : Cfg) (ops : List (Op V))
    (hops : ∀ op ∈ ops, ttlOk cfg op) :
    ∀ p ∈ (run cfg ops initState).cache,
      p.2.created_at ≤ p.2.expires_at :=
  run_entriesOk cfg ops hops

/-- Witness for C6 (amended): one `set` with explicit TTL 0 and one with
the default TTL both yield entries with `created_at ≤ expires_at`. -/
theorem expires_at_ge_created_at_witness :
    (∀ op ∈ [Op.set "a" (1 : Nat) (some 0) 5, Op.set "b" 2 none 6],
      ttlOk cfgDefault op) ∧
    ∀ p ∈ (run cfgDefault
        [Op.set "a" (1 : Nat) (some 0) 5, Op.set "b" 2 none 6]
        initState).cache,
      p.2.created_at ≤ p.2.expires_at := by
  have hops : ∀ op ∈ [Op.set "a" (1 : Nat) (some 0) 5, Op.set "b" 2 none 6],
      ttlOk cfgDefault op := by
    intro op hop
    rcases List.mem_cons.mp hop with rfl | hop'
    · show (0 : Int) ≤ (some (0 : Int)).getD cfgDefault.CACHE_TTL_SECONDS
      simp
    · rcases List.mem_cons.mp hop' with rfl | hop''
      · show (0 : Int) ≤ (none : Option Int).getD cfgDefault.CACHE_TTL_SECONDS
        simp [cfgDefault]
      · cases hop''
  exact ⟨hops, expires_at_ge_created_at cfgDefault _ hops⟩

/-- Counterexample to C6 as stated ("every TTL value a caller may pass"):
`set` with an explicit TTL of `-5` at time 100 stores an entry with
`expires_at = 95 < 100 = created_at`. -/
theorem negative_ttl_counterexample :
    List.lookup "a"
      (set cfgDefault 100 "a" (0 : Nat) (some (-5)) initState).cache
      = some ⟨0, 95, 100⟩ ∧
    ¬ ((⟨0, 95, 100⟩ : Entry Nat).created_at
        ≤ (⟨0, 95, 100⟩ : Entry Nat).expires_at) := by
  decide

end CacheService
